import Mathlib

/-!
Shallow embedding of the interface-collection core of `file.go` (package
funcy): composite-type rendering (`getType`), parameter-name synthesis
(`firstStep`, `makeIdentName`, `getParamField`), zero-value resolution
(`getZeroValue`, `getBuiltinZeroValue`), return-clause rendering
(`getReturnFields`, `getDefaultValues`) and the declaration walk
(`getInterfaces`), together with theorems checking the specification's
claims against these definitions.

Embedding conventions:
- Go strings are Lean `String`s; the string helpers from the `strings`
  package are re-implemented over `String.data` (all inputs are ASCII).
- `fmt.Sprintf("%s%d ...", s, i, ...)` becomes `s ++ Nat.repr i ++ ...`.
- The `types.Info` oracle (`f.info.TypeOf(ident).Underlying().String()`)
  is a parameter `u : String → String` mapping an identifier to the
  string of its underlying type.
- Functions that can panic in Go (indexing an empty or short list) are
  `Option`-valued; `none` models the panic.
- Go slices (identity of the backing array, length, capacity) are
  modelled explicitly for `getInterfaces`, whose `result` slice is
  resliced with `result = result[:0]` and stored into the map.
-/

namespace Funcy

/-- Models `strings.ToLower` (ASCII). -/
def goToLower (s : String) : String := String.mk (s.data.map Char.toLower)

/-- Index of the first occurrence of character `c`, as in
`strings.Index(s, c)` for a one-character needle (`none` models `-1`). -/
def charIdx : List Char → Char → Option Nat
  | [], _ => none
  | a :: as, c => if a = c then some 0 else (charIdx as c).map (· + 1)

/-- Models `strings.HasPrefix s pre`. -/
def goStartsWith (s pre : String) : Bool := pre.data.isPrefixOf s.data

/-- The `reserved` map of `file.go`: primitive type name → identifier stem.
An association list models the Go map (lookup only, never mutated). -/
def reserved : List (String × String) :=
  [("bool", "bval"), ("int", "ival"), ("int8", "i8val"), ("int16", "i16val"),
   ("int32", "i32val"), ("int64", "i64val"), ("uint", "uival"), ("uint8", "ui8val"),
   ("uint16", "ui16val"), ("uint32", "ui32val"), ("uint64", "ui64val"),
   ("float32", "f32val"), ("float64", "f64val"), ("complex64", "cmplx64val"),
   ("complex128", "cmplx128val"), ("string", "strval"), ("struct\x7b\x7d", "structval"),
   ("interface\x7b\x7d", "ifaceval")]

/-- The Go `reservedPrefix` map is `{"map" ↦ "map", "[]" ↦ "s"}`.  Its two
uses iterate over the keys; since no string can start with both keys, the
iteration order of the Go map does not matter and both loops are embedded
as sequential checks of the two keys. -/
def reservedPreKeys : List String := ["map", "[]"]

/-- `firstStep` of `file.go`: strip a package qualifier (collapsing the
`context` package to `"ctx"`) unless the text starts with a composite
prefix. -/
def firstStep (lower : String) : String :=
  if goStartsWith lower "map" || goStartsWith lower "[]" then lower
  else
    match charIdx lower.data '.' with
    | some i =>
        let typ := String.mk (lower.data.drop (i + 1))
        if typ = "context" then "ctx" else typ
    | none => lower

/-- `makeIdentName` of `file.go`, with an explicit structural fuel so that
the definition evaluates in the kernel.  Each recursive call drops at
least one character (everything up to and including the first `']'`), so
fuel `lower.length` is always sufficient (`makeIdentNameFuel_irrel`);
fuel `0` is only reached on the empty string, where the Go function also
returns its argument unchanged. -/
def makeIdentNameFuel : Nat → String → String
  | 0, lower => lower
  | fuel + 1, lower =>
    let ident := firstStep lower
    match reserved.lookup ident with
    | some v => v
    | none =>
      if goStartsWith ident "map" then
        match charIdx ident.data ']' with
        | some i => makeIdentNameFuel fuel (String.mk (ident.data.drop (i + 1))) ++ "map"
        | none => ident
      else if goStartsWith ident "[]" then
        match charIdx ident.data ']' with
        | some i => makeIdentNameFuel fuel (String.mk (ident.data.drop (i + 1))) ++ "s"
        | none => ident
      else ident

/-- `makeIdentName` of `file.go`. -/
def makeIdentName (lower : String) : String := makeIdentNameFuel lower.length lower

/-- Type-expression nodes (`ast.Expr`) as consumed by `file.go`: exactly
the shapes matched by `getType`.  A function type carries its parameter
and result field lists; a field (`ast.Field`) is a list of names plus a
type.  `chanType`'s `dir` is the raw `ast.ChanDir` bit set
(`SEND = 1`, `RECV = 2`, bidirectional = `3`). -/
inductive Expr : Type where
  | ident (name : String)
  | selector (x : Expr) (sel : String)
  | star (x : Expr)
  | arrayType (elt : Expr)
  | mapType (key value : Expr)
  | funcType (params : List (List String × Expr)) (results : List (List String × Expr))
  | chanType (dir : Nat) (value : Expr)
  | structType
  | interfaceType

/-- An `ast.Field`: the declared names (possibly empty) and the type. -/
abbrev Field : Type := List String × Expr

mutual
/-- `getType` of `file.go`.  The `chanType` case mirrors the Go
`switch types.ChanDir(v.Dir)`: the raw `ast` direction is compared with
the `types` constants `SendRecv = 0`, `SendOnly = 1`, `RecvOnly = 2`, so
an `ast` bidirectional channel (`Dir = 3`) falls through to the default
(no marker).  The `funcType` case inlines `getParamTypes` and
`getReturnFields` (defined below as the same compositions of
`getTypeList` and `getReturnList`).  `none` models a panic inside the
result-clause rendering (empty result list). -/
def getType : Expr → Option String
  | .ident n => some n
  | .selector x sel => (getType x).map (fun s => s ++ "." ++ sel)
  | .star x => (getType x).map (fun s => "*" ++ s)
  | .arrayType e => (getType e).map (fun s => "[]" ++ s)
  | .mapType k v => do
      let ks ← getType k
      let vs ← getType v
      pure ("map[" ++ ks ++ "]" ++ vs)
  | .funcType ps rs => do
      let pt ← getTypeList ps
      let rt ← getReturnList rs
      let rtStr ← if rt.length > 1 then some ("(" ++ String.intercalate ", " rt ++ ")") else rt.head?
      pure ("func(" ++ String.intercalate ", " pt ++ ") " ++ rtStr)
  | .chanType d v =>
      let ch := if d = 0 then "chan "
        else if d = 1 then "chan " ++ "<-"
        else if d = 2 then "<-" ++ "chan "
        else "chan "
      (getType v).map (fun s => ch ++ s)
  | .structType => some "struct\x7b\x7d"
  | .interfaceType => some "interface\x7b\x7d"

/-- The per-field renderings accumulated by the loop of `getParamTypes`:
one entry per field, each `getType p.Type`. -/
def getTypeList : List Field → Option (List String)
  | [] => some []
  | p :: ps =>
    match getType p.2, getTypeList ps with
    | some t, some ts => some (t :: ts)
    | _, _ => none

/-- The per-field renderings accumulated by the loop of
`getReturnFields`: a named field renders as `name ++ " " ++ type`
(only `Names[0]` is used), an unnamed one as the bare type. -/
def getReturnList : List Field → Option (List String)
  | [] => some []
  | p :: ps =>
    match getType p.2, getReturnList ps with
    | some t, some ts =>
      some ((match p.1 with
        | n :: _ => n ++ " " ++ t
        | [] => t) :: ts)
    | _, _ => none
end

/-- `getParamTypes` of `file.go`: comma-join of the rendered types. -/
def getParamTypes (l : List Field) : Option String :=
  (getTypeList l).map (String.intercalate ", ")

/-- `getReturnFields` of `file.go`: parenthesized comma-join when more
than one entry, otherwise `params[0]` — which panics (`none`) when the
result list is empty. -/
def getReturnFields (l : List Field) : Option String := do
  let rt ← getReturnList l
  if rt.length > 1 then some ("(" ++ String.intercalate ", " rt ++ ")") else rt.head?

/-- The case list of the `switch` in `getBuiltinZeroValue` that yields
`"0"`. -/
def numericKinds : List String :=
  ["uint8", "uint16", "uint32", "uint64", "uint", "uintptr",
   "int8", "int16", "int32", "int64", "int", "byte", "rune",
   "float32", "float64", "complex64", "complex128"]

/-- `getBuiltinZeroValue` of `file.go`; `u` is the resolution oracle
(`f.info.TypeOf(ident).Underlying().String()`). -/
def getBuiltinZeroValue (u : String → String) (name : String) : String :=
  let k := u name
  if numericKinds.contains k then "0"
  else if k = "bool" then "false"
  else if k = "string" then "\"\""
  else "nil"

/-- `getZeroValue` of `file.go`.  The Go `SelectorExpr` case recurses as
`f.getZeroValue(v.Sel)`; `v.Sel` is an `*ast.Ident`, so that call lands
in the `Ident` branch, which is inlined here (`getBuiltinZeroValue`).
The source also lists `*ast.SliceExpr` among the `nil` cases; that is an
expression node, not a type node, and has no counterpart in `Expr`. -/
def getZeroValue (u : String → String) : Expr → String
  | .star _ => "nil"
  | .arrayType _ => "nil"
  | .mapType _ _ => "nil"
  | .funcType _ _ => "nil"
  | .chanType _ _ => "nil"
  | .structType => "nil"
  | .interfaceType => "nil"
  | .selector _ sel => getBuiltinZeroValue u sel
  | .ident n => getBuiltinZeroValue u n

/-- The per-field loop of `getDefaultValues`: one `getZeroValue` entry
per result field (a field with several names still contributes one). -/
def getDefaultValuesList (u : String → String) : List Field → List String
  | [] => []
  | p :: ps => getZeroValue u p.2 :: getDefaultValuesList u ps

/-- `getDefaultValues` of `file.go`. -/
def getDefaultValues (u : String → String) (l : List Field) : String :=
  String.intercalate ", " (getDefaultValuesList u l)

/-- The collision table `m := make(map[string]uint)` of `getParamField`,
as a partial map. -/
def emptyTable : String → Option Nat := fun _ => none

/-- Go map assignment `m[k] = v`. -/
def tableSet (m : String → Option Nat) (k : String) (v : Nat) : String → Option Nat :=
  fun x => if x = k then some v else m x

/-- The loop of `getParamField`, returning the two slices (`params`,
`names`) it accumulates.  A named field contributes `Names[0]` untouched
and does not consult the table; an unnamed one derives a stem with
`makeIdentName(strings.ToLower(getType(p.Type)))` and resolves collisions
through the table: first occurrence emits the bare stem and stores `0`,
a later occurrence emits `stem ++ counter` and then increments. -/
def getParamFieldLoop : List Field → (String → Option Nat) → Option (List String × List String)
  | [], _ => some ([], [])
  | p :: ps, m =>
    match p.1 with
    | n :: _ =>
      match getType p.2, getParamFieldLoop ps m with
      | some t, some r => some ((n ++ " " ++ t) :: r.1, n :: r.2)
      | _, _ => none
    | [] =>
      match getType p.2 with
      | none => none
      | some t =>
        let key := makeIdentName (goToLower t)
        match m key with
        | some i =>
          match getParamFieldLoop ps (tableSet m key (i + 1)) with
          | some r => some ((key ++ Nat.repr i ++ " " ++ t) :: r.1, (key ++ Nat.repr i) :: r.2)
          | none => none
        | none =>
          match getParamFieldLoop ps (tableSet m key 0) with
          | some r => some ((key ++ " " ++ t) :: r.1, key :: r.2)
          | none => none

/-- `getParamField` of `file.go`: the joined `fullFields` and `namesOnly`
projections. -/
def getParamField (l : List Field) : Option (String × String) := do
  let (prms, nms) ← getParamFieldLoop l emptyTable
  pure (String.intercalate ", " prms, String.intercalate ", " nms)

/-- The `Param` record (fields as used by `file.go`): `TypeOnly`
(`typesOnly`), `NameOnly` (`namesOnly`) and `Field` (`fullFields`). -/
structure Param where
  TypeOnly : String
  NameOnly : String
  Field : String
deriving DecidableEq

/-- The `Return` record: `Type` (return-signature text) and `Value`
(default-value expressions); `Type` is a Lean keyword, hence `type`. -/
structure Return where
  type : String
  value : String
deriving DecidableEq

/-- The `Interface` record of `file.go`: one interface method. -/
structure Interface where
  name : String
  param : Param
  ret : Return
deriving DecidableEq

/-- `makeParam` of `file.go`. -/
def makeParam (l : List Field) : Option Param := do
  let (field, names) ← getParamField l
  let tps ← getParamTypes l
  pure ⟨tps, names, field⟩

/-- `makeReturn` of `file.go`. -/
def makeReturn (u : String → String) (l : List Field) : Option Return := do
  let t ← getReturnFields l
  pure ⟨t, getDefaultValues u l⟩

/-- Whether a field's type is a function signature (`*ast.FuncType`). -/
def isFuncType : Expr → Bool
  | .funcType _ _ => true
  | _ => false

/-- The method loop in the `*ast.InterfaceType` case of `getInterfaces`:
for each member of `v.Methods.List` whose type is a `FuncType`, build an
`Interface` record from `x.Names[0]` (`none` models the panic on an
empty name list), the parameter list and the result list; every other
member (e.g. an embedded interface) is skipped.  The records are listed
in the order the loop appends them. -/
def methodRecs (u : String → String) : List Field → Option (List Interface)
  | [] => some []
  | x :: xs =>
    match x.2 with
    | .funcType ps rs =>
      match x.1.head?, makeParam ps, makeReturn u rs, methodRecs u xs with
      | some nm, some pr, some rr, some rest => some (⟨nm, pr, rr⟩ :: rest)
      | _, _, _, _ => none
    | _ => methodRecs u xs

/-- A Go backing array: capacity and current contents
(`data.length ≤ cap`; slots past a slice's length may hold stale
records, which is what the reslicing bug exposes). -/
structure ArrObj where
  cap : Nat
  data : List Interface
deriving DecidableEq

/-- A Go slice header over the heap below: backing-array index and
length.  All slices in `getInterfaces` start at offset 0. -/
structure GoSlice where
  arr : Nat
  len : Nat
deriving DecidableEq

/-- `append(s, x)` for a slice of records: write in place when the
capacity suffices, otherwise allocate a fresh backing array.  The growth
`0 → 1 → 2 → 4 → …` models the Go runtime's growth for a small slice of
pointers; only the step `0 → 1` is exercised by the theorems below. -/
def heapAppend (heap : List ArrObj) (s : GoSlice) (x : Interface) :
    List ArrObj × GoSlice :=
  let a := heap.getD s.arr ⟨0, []⟩
  if s.len < a.cap then
    let d := if s.len < a.data.length then a.data.set s.len x else a.data ++ [x]
    (heap.set s.arr ⟨a.cap, d⟩, ⟨s.arr, s.len + 1⟩)
  else
    (heap ++ [⟨if a.cap = 0 then 1 else 2 * a.cap, a.data.take s.len ++ [x]⟩],
     ⟨heap.length, s.len + 1⟩)

/-- Append a list of records one by one (the method loop's appends). -/
def appendAll (heap : List ArrObj) (s : GoSlice) : List Interface → List ArrObj × GoSlice
  | [] => (heap, s)
  | x :: xs =>
    let hs := heapAppend heap s x
    appendAll hs.1 hs.2 xs

/-- Go map assignment `f.data[name] = result` (insert or overwrite). -/
def upsert : List (String × GoSlice) → String → GoSlice → List (String × GoSlice)
  | [], k, v => [(k, v)]
  | (k0, v0) :: rest, k, v =>
    if k0 = k then (k, v) :: rest else (k0, v0) :: upsert rest k v

/-- The records a stored slice denotes: the backing array's contents up
to the slice's length. -/
def sliceView (heap : List ArrObj) (s : GoSlice) : List Interface :=
  ((heap.getD s.arr ⟨0, []⟩).data).take s.len

/-- One top-level `type` declaration of the walked file: its name and,
when it declares an interface type, the member list of the
`*ast.InterfaceType` body. -/
structure Decl where
  name : String
  body : Option (List Field)

/-- The walk events one `Decl` contributes, in `ast.Walk` (depth-first)
order.  The `*ast.TypeSpec` case sets `name` when the declared type is
an interface and reslices `result = result[:0]` unconditionally; the
`*ast.InterfaceType` child then appends one record per function-typed
member and stores `f.data[name] = result`.  (This models files whose
method signatures contain no nested interface literals, which would
trigger extra `InterfaceType` events.) -/
def stepDecl (u : String → String) (st : List ArrObj × String × GoSlice × List (String × GoSlice))
    (d : Decl) : Option (List ArrObj × String × GoSlice × List (String × GoSlice)) :=
  let heap := st.1
  let name := if d.body.isSome then d.name else st.2.1
  let res : GoSlice := ⟨st.2.2.1.arr, 0⟩
  let data := st.2.2.2
  match d.body with
  | none => some (heap, name, res, data)
  | some fields => do
      let recs ← methodRecs u fields
      let hs := appendAll heap res recs
      pure (hs.1, name, hs.2, upsert data name hs.2)

/-- `getInterfaces` of `file.go` over a list of top-level type
declarations: starts from `result := make([]*Interface, 0)` (one empty
backing array of capacity 0) and an empty `data` map, and processes each
declaration's walk events in order.  Returns the final heap, scratch
state and `data` map; `none` models a panic while building a record. -/
def getInterfaces (u : String → String) (ds : List Decl) :
    Option (List ArrObj × String × GoSlice × List (String × GoSlice)) :=
  ds.foldlM (stepDecl u) ([⟨0, []⟩], "", ⟨0, 0⟩, [])

/-- The method list `getInterfaces` left stored for interface `name`:
the `data` entry's slice resolved against the final heap. -/
def storedMethods (u : String → String) (ds : List Decl) (name : String) :
    Option (List Interface) := do
  let st ← getInterfaces u ds
  let s ← st.2.2.2.lookup name
  pure (sliceView st.1 s)

/-! Claim-side definitions: vocabulary the specification's claims are
stated in, to be compared with the functions above. -/

/-- The stem the synthesizer derives for a field's type (defined whenever
the type renders). -/
def stemOf (p : Field) : Option String :=
  (getType p.2).map (fun t => makeIdentName (goToLower t))

/-- How many unnamed fields before position `i` derive stem `σ`. -/
def priorStemCount (l : List Field) (i : Nat) (σ : String) : Nat :=
  ((l.take i).filter (fun p => p.1.isEmpty && (stemOf p == some σ))).length

/-- The name the spec predicts for the occurrence of a stem whose count
of earlier same-stem occurrences is given: `stem, stem0, stem1, …`. -/
def synthName (stem : String) : Nat → String
  | 0 => stem
  | c + 1 => stem ++ Nat.repr c

/-- The spec's per-field rendering of one result (\"the rendered
results\"): `name type` for a named field, the bare type otherwise. -/
def renderResult (p : Field) : Option String :=
  (getType p.2).map (fun t =>
    match p.1 with
    | n :: _ => n ++ " " ++ t
    | [] => t)

/-- Decimal value of a digit string (inverse used to show `Nat.repr` is
injective). -/
def parseVal (l : List Char) : Nat := l.foldl (fun a c => a * 10 + (c.toNat - 48)) 0

/-- A resolution oracle for concrete inputs whose identifiers are all
unresolved named types (underlying kind not primitive). -/
def u0 : String → String := fun _ => "unresolved"

end Funcy

namespace Funcy

theorem loop_cons_named (p : Field) (ps : List Field) (m : String → Option Nat)
    (n : String) (ns : List String) (hp : p.1 = n :: ns) (t : String)
    (hgt : getType p.2 = some t) :
    getParamFieldLoop (p :: ps) m =
      (getParamFieldLoop ps m).map (fun r => ((n ++ " " ++ t) :: r.1, n :: r.2)) := by
  simp only [getParamFieldLoop, hp, hgt]
  cases getParamFieldLoop ps m <;> rfl

theorem loop_cons_unnamed_hit (p : Field) (ps : List Field) (m : String → Option Nat)
    (hp : p.1 = []) (t : String) (hgt : getType p.2 = some t) (i : Nat)
    (hm : m (makeIdentName (goToLower t)) = some i) :
    getParamFieldLoop (p :: ps) m =
      (getParamFieldLoop ps (tableSet m (makeIdentName (goToLower t)) (i + 1))).map
        (fun r => ((makeIdentName (goToLower t) ++ Nat.repr i ++ " " ++ t) :: r.1,
                   (makeIdentName (goToLower t) ++ Nat.repr i) :: r.2)) := by
  simp only [getParamFieldLoop, hp, hgt, hm]
  cases getParamFieldLoop ps (tableSet m (makeIdentName (goToLower t)) (i + 1)) <;> rfl

theorem loop_cons_unnamed_miss (p : Field) (ps : List Field) (m : String → Option Nat)
    (hp : p.1 = []) (t : String) (hgt : getType p.2 = some t)
    (hm : m (makeIdentName (goToLower t)) = none) :
    getParamFieldLoop (p :: ps) m =
      (getParamFieldLoop ps (tableSet m (makeIdentName (goToLower t)) 0)).map
        (fun r => ((makeIdentName (goToLower t) ++ " " ++ t) :: r.1,
                   makeIdentName (goToLower t) :: r.2)) := by
  simp only [getParamFieldLoop, hp, hgt, hm]
  cases getParamFieldLoop ps (tableSet m (makeIdentName (goToLower t)) 0) <;> rfl

theorem loop_cons_badtype (p : Field) (ps : List Field) (m : String → Option Nat)
    (hgt : getType p.2 = none) :
    getParamFieldLoop (p :: ps) m = none := by
  cases hp : p.1 with
  | cons n ns => simp only [getParamFieldLoop, hp, hgt]
  | nil => simp only [getParamFieldLoop, hp, hgt]

theorem getParamFieldLoop_lengths (l : List Field) :
    ∀ (m : String → Option Nat) (prms nms : List String),
      getParamFieldLoop l m = some (prms, nms) →
      prms.length = l.length ∧ nms.length = l.length := by
  induction l with
  | nil =>
    intro m prms nms h
    simp [getParamFieldLoop] at h
    simp [h.1, h.2]
  | cons p ps ih =>
    intro m prms nms h
    cases hp : p.1 with
    | cons n ns =>
      simp only [getParamFieldLoop, hp] at h
      cases hgt : getType p.2 with
      | none => rw [hgt] at h; simp at h
      | some t =>
        rw [hgt] at h
        cases hr : getParamFieldLoop ps m with
        | none => rw [hr] at h; simp at h
        | some r =>
          rw [hr] at h
          simp only [Option.some.injEq, Prod.mk.injEq] at h
          obtain ⟨h1, h2⟩ := h
          have := ih m r.1 r.2 (by rw [hr])
          subst h1 h2
          simp [this.1, this.2]
    | nil =>
      simp only [getParamFieldLoop, hp] at h
      cases hgt : getType p.2 with
      | none => rw [hgt] at h; simp at h
      | some t =>
        rw [hgt] at h
        simp only at h
        cases hm : m (makeIdentName (goToLower t)) with
        | some i =>
          cases hr : getParamFieldLoop ps (tableSet m (makeIdentName (goToLower t)) (i + 1)) with
          | none => simp only [hm, hr] at h; exact absurd h (by simp)
          | some r =>
            simp only [hm, hr, Option.some.injEq, Prod.mk.injEq] at h
            obtain ⟨h1, h2⟩ := h
            have := ih _ r.1 r.2 (by rw [hr])
            subst h1 h2
            simp [this.1, this.2]
        | none =>
          cases hr : getParamFieldLoop ps (tableSet m (makeIdentName (goToLower t)) 0) with
          | none => simp only [hm, hr] at h; exact absurd h (by simp)
          | some r =>
            simp only [hm, hr, Option.some.injEq, Prod.mk.injEq] at h
            obtain ⟨h1, h2⟩ := h
            have := ih _ r.1 r.2 (by rw [hr])
            subst h1 h2
            simp [this.1, this.2]


theorem getTypeList_cons_some (p : Field) (ps : List Field) (t : String)
    (hgt : getType p.2 = some t) :
    getTypeList (p :: ps) = (getTypeList ps).map (fun ts => t :: ts) := by
  simp only [getTypeList, hgt]
  cases getTypeList ps <;> rfl

theorem getTypeList_length (l : List Field) :
    ∀ ts, getTypeList l = some ts → ts.length = l.length := by
  induction l with
  | nil => intro ts h; simp [getTypeList] at h; simp [h]
  | cons p ps ih =>
    intro ts h
    cases hgt : getType p.2 with
    | none => simp only [getTypeList, hgt] at h; exact absurd h (by simp)
    | some t =>
      rw [getTypeList_cons_some p ps t hgt] at h
      cases hts : getTypeList ps with
      | none => rw [hts] at h; exact absurd h (by simp)
      | some ts2 =>
        rw [hts] at h
        simp only [Option.map_some', Option.some.injEq] at h
        subst h
        simp [ih ts2 hts]

theorem loop_types_align (l : List Field) :
    ∀ (m : String → Option Nat) (prms nms ts : List String),
      getParamFieldLoop l m = some (prms, nms) → getTypeList l = some ts →
      ∀ i a b c, prms.get? i = some a → nms.get? i = some b → ts.get? i = some c →
        a = b ++ " " ++ c := by
  induction l with
  | nil =>
    intro m prms nms ts h hts i a b c ha hb hc
    simp [getParamFieldLoop] at h
    obtain ⟨h1, h2⟩ := h
    subst h1
    simp at ha
  | cons p ps ih =>
    intro m prms nms ts h hts i a b c ha hb hc
    cases hgt : getType p.2 with
    | none => rw [loop_cons_badtype p ps m hgt] at h; exact absurd h (by simp)
    | some t =>
      rw [getTypeList_cons_some p ps t hgt] at hts
      cases hts2 : getTypeList ps with
      | none => rw [hts2] at hts; exact absurd hts (by simp)
      | some ts2 =>
        rw [hts2] at hts
        simp only [Option.map_some', Option.some.injEq] at hts
        subst hts
        cases hp : p.1 with
        | cons n ns =>
          rw [loop_cons_named p ps m n ns hp t hgt] at h
          cases hr : getParamFieldLoop ps m with
          | none => rw [hr] at h; exact absurd h (by simp)
          | some r =>
            rw [hr] at h
            simp only [Option.map_some', Option.some.injEq, Prod.mk.injEq] at h
            obtain ⟨h1, h2⟩ := h
            subst h1 h2
            cases i with
            | zero =>
              simp only [List.get?_cons_zero, Option.some.injEq] at ha hb hc
              subst ha hb hc; rfl
            | succ j =>
              simp only [List.get?_cons_succ] at ha hb hc
              exact ih m r.1 r.2 ts2 hr hts2 j a b c ha hb hc
        | nil =>
          cases hm : m (makeIdentName (goToLower t)) with
          | some cnt =>
            rw [loop_cons_unnamed_hit p ps m hp t hgt cnt hm] at h
            cases hr : getParamFieldLoop ps (tableSet m (makeIdentName (goToLower t)) (cnt + 1)) with
            | none => rw [hr] at h; exact absurd h (by simp)
            | some r =>
              rw [hr] at h
              simp only [Option.map_some', Option.some.injEq, Prod.mk.injEq] at h
              obtain ⟨h1, h2⟩ := h
              subst h1 h2
              cases i with
              | zero =>
                simp only [List.get?_cons_zero, Option.some.injEq] at ha hb hc
                subst ha hb hc; rfl
              | succ j =>
                simp only [List.get?_cons_succ] at ha hb hc
                exact ih _ r.1 r.2 ts2 hr hts2 j a b c ha hb hc
          | none =>
            rw [loop_cons_unnamed_miss p ps m hp t hgt hm] at h
            cases hr : getParamFieldLoop ps (tableSet m (makeIdentName (goToLower t)) 0) with
            | none => rw [hr] at h; exact absurd h (by simp)
            | some r =>
              rw [hr] at h
              simp only [Option.map_some', Option.some.injEq, Prod.mk.injEq] at h
              obtain ⟨h1, h2⟩ := h
              subst h1 h2
              cases i with
              | zero =>
                simp only [List.get?_cons_zero, Option.some.injEq] at ha hb hc
                subst ha hb hc; rfl
              | succ j =>
                simp only [List.get?_cons_succ] at ha hb hc
                exact ih _ r.1 r.2 ts2 hr hts2 j a b c ha hb hc


theorem priorStemCount_zero (l : List Field) (σ : String) : priorStemCount l 0 σ = 0 := by
  simp [priorStemCount]

theorem priorStemCount_cons (p : Field) (ps : List Field) (i : Nat) (σ : String) :
    priorStemCount (p :: ps) (i + 1) σ =
      (if p.1.isEmpty && (stemOf p == some σ) then 1 else 0) + priorStemCount ps i σ := by
  simp only [priorStemCount, List.take_succ_cons, List.filter_cons]
  by_cases h : p.1.isEmpty && (stemOf p == some σ)
  · simp only [h, if_true]
    simp [h]
    omega
  · simp [h]

theorem loop_names (l : List Field) :
    ∀ (m : String → Option Nat) (cnt : String → Nat),
      (∀ τ, m τ = if cnt τ = 0 then none else some (cnt τ - 1)) →
      ∀ prms nms, getParamFieldLoop l m = some (prms, nms) →
      ∀ i σ (hi : i < l.length),
        (l.get ⟨i, hi⟩).1 = [] → stemOf (l.get ⟨i, hi⟩) = some σ →
        nms.get? i = some (synthName σ (cnt σ + priorStemCount l i σ)) := by
  induction l with
  | nil => intro m cnt hm prms nms h i σ hi; exact absurd hi (by simp)
  | cons p ps ih =>
    intro m cnt hm prms nms h i σ hi hun hstem
    cases hgt : getType p.2 with
    | none => rw [loop_cons_badtype p ps m hgt] at h; exact absurd h (by simp)
    | some t =>
      cases hp : p.1 with
      | cons n ns =>
        rw [loop_cons_named p ps m n ns hp t hgt] at h
        cases hr : getParamFieldLoop ps m with
        | none => rw [hr] at h; exact absurd h (by simp)
        | some r =>
          rw [hr] at h
          simp only [Option.map_some', Option.some.injEq, Prod.mk.injEq] at h
          obtain ⟨h1, h2⟩ := h
          subst h1 h2
          cases i with
          | zero =>
            have hq : p.1 = [] := hun
            rw [hp] at hq
            exact absurd hq (by simp)
          | succ j =>
            rw [List.get_cons_succ] at hun hstem
            rw [priorStemCount_cons]
            have hpne : (p.1.isEmpty && (stemOf p == some σ)) = false := by
              simp [hp]
            rw [hpne]
            simp only [Bool.false_eq_true, if_false, Nat.zero_add, List.get?_cons_succ]
            exact ih m cnt hm r.1 r.2 hr j σ (by simpa using hi) hun hstem
      | nil =>
        have hstemp : stemOf p = some (makeIdentName (goToLower t)) := by
          simp [stemOf, hgt]
        cases hm0 : m (makeIdentName (goToLower t)) with
        | some c0 =>
          have hcnt : cnt (makeIdentName (goToLower t)) = c0 + 1 := by
            have := hm (makeIdentName (goToLower t))
            rw [hm0] at this
            by_cases hz : cnt (makeIdentName (goToLower t)) = 0
            · rw [if_pos hz] at this; exact absurd this (by simp)
            · rw [if_neg hz] at this
              simp only [Option.some.injEq] at this
              omega
          rw [loop_cons_unnamed_hit p ps m hp t hgt c0 hm0] at h
          cases hr : getParamFieldLoop ps (tableSet m (makeIdentName (goToLower t)) (c0 + 1)) with
          | none => rw [hr] at h; exact absurd h (by simp)
          | some r =>
            rw [hr] at h
            simp only [Option.map_some', Option.some.injEq, Prod.mk.injEq] at h
            obtain ⟨h1, h2⟩ := h
            subst h1 h2
            cases i with
            | zero =>
              have hs : stemOf p = some σ := hstem
              rw [hstemp] at hs
              simp only [Option.some.injEq] at hs
              subst hs
              rw [priorStemCount_zero]
              simp only [List.get?_cons_zero, Option.some.injEq]
              rw [Nat.add_zero, hcnt]
              rfl
            | succ j =>
              rw [List.get_cons_succ] at hun hstem
              rw [priorStemCount_cons]
              simp only [List.get?_cons_succ]
              have hinv : ∀ τ, tableSet m (makeIdentName (goToLower t)) (c0 + 1) τ =
                  if (fun τ => if τ = makeIdentName (goToLower t) then cnt τ + 1 else cnt τ) τ = 0
                  then none
                  else some ((fun τ => if τ = makeIdentName (goToLower t) then cnt τ + 1 else cnt τ) τ - 1) := by
                intro τ
                by_cases hτ : τ = makeIdentName (goToLower t)
                · subst hτ
                  simp [tableSet, hcnt]
                · simp only [tableSet, if_neg hτ]
                  exact hm τ
              have hrec := ih _ _ hinv r.1 r.2 hr j σ (by simpa using hi) hun hstem
              have hcount : (if σ = makeIdentName (goToLower t) then cnt σ + 1 else cnt σ) +
                  priorStemCount ps j σ =
                  cnt σ + ((if p.1.isEmpty && (stemOf p == some σ) then 1 else 0) +
                    priorStemCount ps j σ) := by
                by_cases hσ : σ = makeIdentName (goToLower t)
                · have hbit : (p.1.isEmpty && (stemOf p == some σ)) = true := by
                    simp [hp, hstemp, hσ]
                  rw [if_pos hσ, hbit]
                  simp only [if_pos]
                  omega
                · have hbit : (p.1.isEmpty && (stemOf p == some σ)) = false := by
                    simp only [hp, List.isEmpty_nil, Bool.true_and, hstemp]
                    simp only [beq_eq_false_iff_ne, ne_eq, Option.some.injEq]
                    exact fun hc => hσ hc.symm
                  rw [if_neg hσ, hbit]
                  simp
              rw [hrec, hcount]
        | none =>
          have hcnt : cnt (makeIdentName (goToLower t)) = 0 := by
            have := hm (makeIdentName (goToLower t))
            rw [hm0] at this
            by_cases hz : cnt (makeIdentName (goToLower t)) = 0
            · exact hz
            · rw [if_neg hz] at this; exact absurd this (by simp)
          rw [loop_cons_unnamed_miss p ps m hp t hgt hm0] at h
          cases hr : getParamFieldLoop ps (tableSet m (makeIdentName (goToLower t)) 0) with
          | none => rw [hr] at h; exact absurd h (by simp)
          | some r =>
            rw [hr] at h
            simp only [Option.map_some', Option.some.injEq, Prod.mk.injEq] at h
            obtain ⟨h1, h2⟩ := h
            subst h1 h2
            cases i with
            | zero =>
              have hs : stemOf p = some σ := hstem
              rw [hstemp] at hs
              simp only [Option.some.injEq] at hs
              subst hs
              rw [priorStemCount_zero]
              simp only [List.get?_cons_zero, Option.some.injEq]
              rw [Nat.add_zero, hcnt]
              rfl
            | succ j =>
              rw [List.get_cons_succ] at hun hstem
              rw [priorStemCount_cons]
              simp only [List.get?_cons_succ]
              have hinv : ∀ τ, tableSet m (makeIdentName (goToLower t)) 0 τ =
                  if (fun τ => if τ = makeIdentName (goToLower t) then cnt τ + 1 else cnt τ) τ = 0
                  then none
                  else some ((fun τ => if τ = makeIdentName (goToLower t) then cnt τ + 1 else cnt τ) τ - 1) := by
                intro τ
                by_cases hτ : τ = makeIdentName (goToLower t)
                · subst hτ
                  simp [tableSet, hcnt]
                · simp only [tableSet, if_neg hτ]
                  exact hm τ
              have hrec := ih _ _ hinv r.1 r.2 hr j σ (by simpa using hi) hun hstem
              have hcount : (if σ = makeIdentName (goToLower t) then cnt σ + 1 else cnt σ) +
                  priorStemCount ps j σ =
                  cnt σ + ((if p.1.isEmpty && (stemOf p == some σ) then 1 else 0) +
                    priorStemCount ps j σ) := by
                by_cases hσ : σ = makeIdentName (goToLower t)
                · have hbit : (p.1.isEmpty && (stemOf p == some σ)) = true := by
                    simp [hp, hstemp, hσ]
                  rw [if_pos hσ, hbit]
                  simp only [if_pos]
                  omega
                · have hbit : (p.1.isEmpty && (stemOf p == some σ)) = false := by
                    simp only [hp, List.isEmpty_nil, Bool.true_and, hstemp]
                    simp only [beq_eq_false_iff_ne, ne_eq, Option.some.injEq]
                    exact fun hc => hσ hc.symm
                  rw [if_neg hσ, hbit]
                  simp
              rw [hrec, hcount]


theorem firstStep_length_le (s : String) : (firstStep s).length ≤ s.length := by
  unfold firstStep
  by_cases h : goStartsWith s "map" || goStartsWith s "[]"
  · rw [if_pos h]
  · rw [if_neg h]
    cases hci : charIdx s.data '.' with
    | none => exact le_refl _
    | some i =>
      simp only
      by_cases hctx : String.mk (s.data.drop (i + 1)) = "context"
      · rw [if_pos hctx]
        have h7 : (s.data.drop (i + 1)).length = 7 := by
          have h9 : (String.mk (s.data.drop (i + 1))).length = "context".length := by rw [hctx]
          exact h9
        rw [List.length_drop] at h7
        have hsl : s.length = s.data.length := rfl
        show (3 : Nat) ≤ s.length
        omega
      · rw [if_neg hctx]
        show (s.data.drop (i + 1)).length ≤ s.length
        rw [List.length_drop]
        have hsl : s.length = s.data.length := rfl
        omega

theorem string_length_zero (s : String) (h : s.length = 0) : s = "" := by
  cases s with
  | mk d =>
    cases d with
    | nil => rfl
    | cons c cs => exact absurd h (by simp [String.length])

theorem makeIdentNameFuel_empty (f : Nat) : makeIdentNameFuel f "" = "" := by
  cases f with
  | zero => rfl
  | succ g => rfl

theorem makeIdentNameFuel_irrel (n : Nat) :
    ∀ (f g : Nat) (s : String), s.length ≤ n → s.length ≤ f → s.length ≤ g →
      makeIdentNameFuel f s = makeIdentNameFuel g s := by
  induction n with
  | zero =>
    intro f g s hn hf hg
    rw [string_length_zero s (Nat.le_zero.mp hn), makeIdentNameFuel_empty, makeIdentNameFuel_empty]
  | succ n ih =>
    intro f g s hn hf hg
    by_cases hz : s.length = 0
    · rw [string_length_zero s hz, makeIdentNameFuel_empty, makeIdentNameFuel_empty]
    · match f, g with
      | 0, _ => omega
      | _, 0 => omega
      | f' + 1, g' + 1 =>
        simp only [makeIdentNameFuel]
        cases hlk : reserved.lookup (firstStep s) with
        | some v => rfl
        | none =>
          simp only
          by_cases h1 : goStartsWith (firstStep s) "map"
          · rw [if_pos h1, if_pos h1]
            cases hci : charIdx (firstStep s).data ']' with
            | none => rfl
            | some i =>
              simp only
              congr 1
              apply ih f' g'
              all_goals
                have hfl := firstStep_length_le s
                show ((firstStep s).data.drop (i + 1)).length ≤ _
                rw [List.length_drop]
                have he2 : (firstStep s).length = (firstStep s).data.length := rfl
                have he3 : s.length = s.data.length := rfl
                omega
          · rw [if_neg h1, if_neg h1]
            by_cases h2 : goStartsWith (firstStep s) "[]"
            · rw [if_pos h2, if_pos h2]
              cases hci : charIdx (firstStep s).data ']' with
              | none => rfl
              | some i =>
                simp only
                congr 1
                apply ih f' g'
                all_goals
                  simp only [String.length, List.length_drop]
                  have hfl := firstStep_length_le s
                  simp only [String.length] at hfl
                  simp only [String.length] at hn hf hg
                  omega
            · rw [if_neg h2, if_neg h2]

theorem makeIdentNameFuel_eq (f : Nat) (s : String) (hf : s.length ≤ f) :
    makeIdentNameFuel f s = makeIdentName s :=
  makeIdentNameFuel_irrel s.length f s.length s le_rfl hf le_rfl


theorem lookup_none_of_head (c : Char) :
    ∀ (es : List (String × String)), es.all (fun kv => kv.1.data.head? != some c) = true →
      ∀ (s : String), s.data.head? = some c → es.lookup s = none := by
  intro es
  induction es with
  | nil => intro _ s _; rfl
  | cons kv es ih =>
    intro hall s hs
    simp only [List.all_cons, Bool.and_eq_true] at hall
    obtain ⟨hk, hrest⟩ := hall
    have hne : (s == kv.1) = false := by
      rw [beq_eq_false_iff_ne]
      intro hc
      rw [hc] at hs
      simp only [bne_iff_ne, ne_eq] at hk
      exact hk hs
    cases kv with
    | mk k v =>
      simp only [List.lookup, hne]
      exact ih hrest s hs

theorem data_brackets (r : String) : ("[]" ++ r).data = '[' :: ']' :: r.data := by
  rw [String.data_append]
  rfl

theorem makeIdentName_slice (r : String) : makeIdentName ("[]" ++ r) = makeIdentName r ++ "s" := by
  have hdata := data_brackets r
  have hlen : ("[]" ++ r).length = r.length + 2 := by
    show ("[]" ++ r).data.length = r.data.length + 2
    rw [hdata]
    simp
  have hsw : goStartsWith ("[]" ++ r) "[]" = true := by
    simp [goStartsWith, hdata, List.isPrefixOf]
  have hswm : goStartsWith ("[]" ++ r) "map" = false := by
    simp [goStartsWith, hdata, List.isPrefixOf]
  have hfs : firstStep ("[]" ++ r) = "[]" ++ r := by
    unfold firstStep
    rw [hsw]
    simp
  have hlk : reserved.lookup ("[]" ++ r) = none := by
    apply lookup_none_of_head '[' reserved (by decide)
    rw [hdata]
    rfl
  have hci : charIdx ("[]" ++ r).data ']' = some 1 := by
    rw [hdata]
    simp [charIdx]
  show makeIdentNameFuel ("[]" ++ r).length ("[]" ++ r) = _
  rw [hlen]
  show makeIdentNameFuel ((r.length + 1) + 1) ("[]" ++ r) = _
  simp only [makeIdentNameFuel, hfs, hlk, hswm, hsw, hci]
  simp only [Bool.false_eq_true, if_false, if_true]
  congr 1
  have harg : String.mk (("[]" ++ r).data.drop (1 + 1)) = r := by
    rw [hdata]
    rfl
  rw [harg]
  exact makeIdentNameFuel_eq (r.length + 1) r (by omega)


-- accumulator lemma for Nat.toDigitsCore
theorem toDigitsCore_append (fuel n : Nat) (ds : List Char) :
    Nat.toDigitsCore 10 fuel n ds = Nat.toDigitsCore 10 fuel n [] ++ ds := by
  induction fuel generalizing n ds with
  | zero => simp [Nat.toDigitsCore]
  | succ f ih =>
    simp only [Nat.toDigitsCore]
    by_cases h : n / 10 = 0
    · simp [h]
    · simp only [h, if_false]
      rw [ih (n / 10) (Nat.digitChar (n % 10) :: ds), ih (n / 10) [Nat.digitChar (n % 10)]]
      simp

theorem toDigitsCore_fuel (f g n : Nat) (hf : n < f) (hg : n < g) :
    Nat.toDigitsCore 10 f n [] = Nat.toDigitsCore 10 g n [] := by
  induction n using Nat.strong_induction_on generalizing f g with
  | _ n ih =>
    match f, g with
    | fuel + 1, gfuel + 1 =>
      simp only [Nat.toDigitsCore]
      by_cases h : n / 10 = 0
      · simp [h]
      · simp only [h, if_false]
        rw [toDigitsCore_append fuel, toDigitsCore_append gfuel]
        have hlt : n / 10 < n := Nat.div_lt_self (by omega) (by omega)
        rw [ih (n / 10) hlt fuel gfuel (by omega) (by omega)]

theorem toDigits_step (n : Nat) (h : 10 ≤ n) :
    Nat.toDigits 10 n = Nat.toDigits 10 (n / 10) ++ [Nat.digitChar (n % 10)] := by
  show Nat.toDigitsCore 10 (n + 1) n [] = _
  have h0 : n / 10 ≠ 0 := by omega
  simp only [Nat.toDigitsCore, h0, if_false]
  rw [toDigitsCore_append n (n / 10)]
  congr 1
  exact toDigitsCore_fuel n (n / 10 + 1) (n / 10) (by omega) (by omega)

theorem toDigits_small (n : Nat) (h : n < 10) : Nat.toDigits 10 n = [Nat.digitChar n] := by
  show Nat.toDigitsCore 10 (n + 1) n [] = _
  have h0 : n / 10 = 0 := by omega
  simp [Nat.toDigitsCore, h0, Nat.mod_eq_of_lt h]

theorem digitChar_val (d : Nat) (h : d < 10) : (Nat.digitChar d).toNat - 48 = d := by
  interval_cases d <;> rfl

theorem parseVal_toDigits (n : Nat) :
    ∀ a, (Nat.toDigits 10 n).foldl (fun a c => a * 10 + (c.toNat - 48)) a = a * 10 ^ (Nat.toDigits 10 n).length + n := by
  induction n using Nat.strong_induction_on with
  | _ n ih =>
    intro a
    by_cases h : n < 10
    · rw [toDigits_small n h]
      simp [digitChar_val n h]
    · rw [toDigits_step n (by omega)]
      rw [List.foldl_append]
      have hlt : n / 10 < n := Nat.div_lt_self (by omega) (by omega)
      rw [ih (n / 10) hlt a]
      simp only [List.foldl]
      rw [digitChar_val (n % 10) (Nat.mod_lt n (by omega))]
      rw [List.length_append, List.length_cons, List.length_nil, pow_succ, ← mul_assoc]
      omega

theorem parseVal_toDigits_zero (n : Nat) : parseVal (Nat.toDigits 10 n) = n := by
  have := parseVal_toDigits n 0
  simpa [parseVal] using this

theorem toDigits_ne_nil (n : Nat) : Nat.toDigits 10 n ≠ [] := by
  by_cases h : n < 10
  · rw [toDigits_small n h]; simp
  · rw [toDigits_step n (by omega)]; simp

theorem natRepr_injective (m n : Nat) (h : Nat.repr m = Nat.repr n) : m = n := by
  have hd : Nat.toDigits 10 m = Nat.toDigits 10 n := by
    have h2 : (Nat.toDigits 10 m).asString = (Nat.toDigits 10 n).asString := h
    exact congrArg String.data h2
  have := parseVal_toDigits_zero m
  rw [hd, parseVal_toDigits_zero n] at this
  omega

theorem natRepr_ne_empty (n : Nat) : Nat.repr n ≠ "" := by
  show (Nat.toDigits 10 n).asString ≠ ""
  intro hc
  exact toDigits_ne_nil n (congrArg String.data hc)

-- needed for C3: names built as s, s ++ repr k distinct
theorem append_repr_ne (s : String) (k : Nat) : s ++ Nat.repr k ≠ s := by
  intro h
  have hlen : (s ++ Nat.repr k).length = s.length := by rw [h]
  rw [String.length_append] at hlen
  have : (Nat.repr k).length = 0 := by omega
  have : Nat.repr k = "" := by
    cases hr : Nat.repr k with
    | mk data => cases data with
      | nil => rfl
      | cons c cs => rw [hr] at this; simp [String.length] at this
  exact natRepr_ne_empty k this

theorem append_repr_inj (s : String) (i j : Nat) (h : s ++ Nat.repr i = s ++ Nat.repr j) : i = j := by
  have : Nat.repr i = Nat.repr j := by
    have hd : (s ++ Nat.repr i).data = (s ++ Nat.repr j).data := by rw [h]
    simp only [String.data_append] at hd
    exact String.ext (List.append_cancel_left hd)
  exact natRepr_injective i j this

theorem priorStemCount_mono (l : List Field) (σ : String) (i j : Nat) (h : i ≤ j) :
    priorStemCount l i σ ≤ priorStemCount l j σ := by
  have hpre : l.take i <+: l.take j := List.take_prefix_take_left l h
  exact ((hpre.filter _).length_le)

theorem priorStemCount_succ_occ (l : List Field) (σ : String) (i : Nat) (hi : i < l.length)
    (hun : (l.get ⟨i, hi⟩).1 = []) (hstem : stemOf (l.get ⟨i, hi⟩) = some σ) :
    priorStemCount l i σ + 1 ≤ priorStemCount l (i + 1) σ := by
  simp only [priorStemCount, List.take_succ]
  rw [List.filter_append, List.length_append]
  rw [List.getElem?_eq_getElem hi]
  have hcond : (l[i].1.isEmpty && (stemOf l[i] == some σ)) = true := by
    have hun2 : l[i].1 = [] := hun
    have hstem2 : stemOf l[i] = some σ := hstem
    simp [hun2, hstem2]
  simp only [Option.toList_some, List.filter_cons, hcond, if_true]
  simp

theorem synthName_inj (σ : String) (c d : Nat) (h : c ≠ d) : synthName σ c ≠ synthName σ d := by
  cases c with
  | zero =>
    cases d with
    | zero => omega
    | succ d2 =>
      intro hc
      exact append_repr_ne σ d2 hc.symm
  | succ c2 =>
    cases d with
    | zero =>
      intro hc
      exact append_repr_ne σ c2 hc
    | succ d2 =>
      intro hc
      exact h (by rw [append_repr_inj σ c2 d2 hc])

theorem methodRecs_skip (u : String → String) (x : Field) (xs : List Field)
    (h : isFuncType x.2 = false) : methodRecs u (x :: xs) = methodRecs u xs := by
  cases hx : x.2 with
  | funcType ps rs => rw [hx] at h; exact absurd h (by simp [isFuncType])
  | ident n => simp only [methodRecs, hx]
  | selector a b => simp only [methodRecs, hx]
  | star a => simp only [methodRecs, hx]
  | arrayType a => simp only [methodRecs, hx]
  | mapType a b => simp only [methodRecs, hx]
  | chanType a b => simp only [methodRecs, hx]
  | structType => simp only [methodRecs, hx]
  | interfaceType => simp only [methodRecs, hx]

theorem methodRecs_filter (u : String → String) (l : List Field) :
    methodRecs u l = methodRecs u (l.filter (fun x => isFuncType x.2)) := by
  induction l with
  | nil => rfl
  | cons x xs ih =>
    cases hxb : isFuncType x.2 with
    | true =>
      have hfc : List.filter (fun y => isFuncType y.2) (x :: xs)
          = x :: List.filter (fun y => isFuncType y.2) xs := by
        simp [List.filter_cons, hxb]
      rw [hfc]
      cases hx2 : x.2 with
      | funcType ps rs => simp only [methodRecs, hx2, ih]
      | ident n => rw [hx2] at hxb; exact absurd hxb (by simp [isFuncType])
      | selector a b => rw [hx2] at hxb; exact absurd hxb (by simp [isFuncType])
      | star a => rw [hx2] at hxb; exact absurd hxb (by simp [isFuncType])
      | arrayType a => rw [hx2] at hxb; exact absurd hxb (by simp [isFuncType])
      | mapType a b => rw [hx2] at hxb; exact absurd hxb (by simp [isFuncType])
      | chanType a b => rw [hx2] at hxb; exact absurd hxb (by simp [isFuncType])
      | structType => rw [hx2] at hxb; exact absurd hxb (by simp [isFuncType])
      | interfaceType => rw [hx2] at hxb; exact absurd hxb (by simp [isFuncType])
    | false =>
      have hfc : List.filter (fun y => isFuncType y.2) (x :: xs)
          = List.filter (fun y => isFuncType y.2) xs := by
        simp [List.filter_cons, hxb]
      rw [hfc, methodRecs_skip u x xs hxb, ih]

theorem getReturnList_length (l : List Field) :
    ∀ rs, getReturnList l = some rs → rs.length = l.length := by
  induction l with
  | nil => intro rs h; simp [getReturnList] at h; simp [h]
  | cons p ps ih =>
    intro rs h
    cases hgt : getType p.2 with
    | none => simp only [getReturnList, hgt] at h; exact absurd h (by simp)
    | some t =>
      cases hrs : getReturnList ps with
      | none => simp only [getReturnList, hgt, hrs] at h; exact absurd h (by simp)
      | some ts =>
        simp only [getReturnList, hgt, hrs, Option.some.injEq] at h
        subst h
        simp [ih ts hrs]

theorem getReturnList_entries (l : List Field) :
    ∀ rs, getReturnList l = some rs →
      ∀ i p, l.get? i = some p → rs.get? i = renderResult p := by
  induction l with
  | nil => intro rs h i p hp; simp at hp
  | cons q ps ih =>
    intro rs h i p hp
    cases hgt : getType q.2 with
    | none => simp only [getReturnList, hgt] at h; exact absurd h (by simp)
    | some t =>
      cases hrs : getReturnList ps with
      | none => simp only [getReturnList, hgt, hrs] at h; exact absurd h (by simp)
      | some ts =>
        simp only [getReturnList, hgt, hrs, Option.some.injEq] at h
        subst h
        cases i with
        | zero =>
          simp only [List.get?_cons_zero, Option.some.injEq] at hp
          subst hp
          simp only [List.get?_cons_zero, renderResult, hgt, Option.map_some']
        | succ j =>
          simp only [List.get?_cons_succ] at hp
          simp only [List.get?_cons_succ]
          exact ih ts hrs j p hp

theorem getDefaultValuesList_map (u : String → String) (l : List Field) :
    getDefaultValuesList u l = l.map (fun p => getZeroValue u p.2) := by
  induction l with
  | nil => rfl
  | cons p ps ih => simp [getDefaultValuesList, ih]


/-- C1: the claim says an interface's stored method list is not altered by
the collection of a later interface in the same file.  The code violates
this: `result = result[:0]` reuses the backing array already stored in
`f.data`, so collecting `B` after `A` overwrites `A`'s stored record in
place.  Here file `A{M1()}; B{M2()}` leaves `data["A"]` holding `B`'s
method `M2`, while collecting `A` alone stores `M1`. -/
theorem c1_later_interface_overwrites_earlier :
    storedMethods u0
      [⟨"A", some [(["M1"], .funcType [] [([], .ident "error")])]⟩,
       ⟨"B", some [(["M2"], .funcType [] [([], .ident "error")])]⟩] "A"
      = some [⟨"M2", ⟨"", "", ""⟩, ⟨"error", "nil"⟩⟩]
    ∧ storedMethods u0 [⟨"A", some [(["M1"], .funcType [] [([], .ident "error")])]⟩] "A"
      = some [⟨"M1", ⟨"", "", ""⟩, ⟨"error", "nil"⟩⟩]
    ∧ (⟨"M2", ⟨"", "", ""⟩, ⟨"error", "nil"⟩⟩ : Interface)
      ≠ ⟨"M1", ⟨"", "", ""⟩, ⟨"error", "nil"⟩⟩ :=
  ⟨by decide, by decide, by decide⟩

/-- C2: the claim says an empty result list or an inconsistent field list
yields a structured MalformedSignature error.  The code has no error
channel at all: on an empty result list `getReturnFields` indexes
`params[0]` out of bounds (a panic, modelled as `none`), and a parameter
field `a, b int` is silently truncated to its first name with no error. -/
theorem c2_malformed_signature_not_propagated :
    getReturnFields ([] : List Field) = none
    ∧ getParamField [(["a", "b"], .ident "int")] = some ("a int", "a") :=
  ⟨rfl, by decide⟩

/-- C3 counterexample: a parameter list `(ival int, int)` makes the
synthesizer produce `"ival"` for the unnamed `int`, colliding with the
declared name `"ival"` of the first parameter (which never enters the
collision table), so the produced identifier is not unique within the
list. -/
theorem c3_synthesized_name_collides_with_declared :
    getParamFieldLoop [(["ival"], Expr.ident "int"), ([], Expr.ident "int")] emptyTable
      = some (["ival int", "ival int"], ["ival", "ival"])
    ∧ ¬ (["ival", "ival"] : List String).Nodup :=
  ⟨by decide, by decide⟩

/-- C3 (amended): identifiers produced for unnamed parameters that derive
the same stem are pairwise distinct within one parameter list, and
originally-named parameters pass their declared name through untouched
without consulting or updating the collision table. -/
theorem c3_amended_same_stem_distinct_named_untouched :
    (∀ (l : List Field) (prms nms : List String),
      getParamFieldLoop l emptyTable = some (prms, nms) →
      ∀ (i j : Nat) (σ : String) (hi : i < l.length) (hj : j < l.length), i < j →
        (l.get ⟨i, hi⟩).1 = [] → (l.get ⟨j, hj⟩).1 = [] →
        stemOf (l.get ⟨i, hi⟩) = some σ → stemOf (l.get ⟨j, hj⟩) = some σ →
        nms.get? i ≠ nms.get? j)
    ∧ (∀ (p : Field) (ps : List Field) (m : String → Option Nat) (n : String)
        (ns : List String) (t : String), p.1 = n :: ns → getType p.2 = some t →
        getParamFieldLoop (p :: ps) m =
          (getParamFieldLoop ps m).map (fun r => ((n ++ " " ++ t) :: r.1, n :: r.2))) := by
  constructor
  · intro l prms nms h i j σ hi hj hij huni hunj hsi hsj
    have hni := loop_names l emptyTable (fun _ => 0) (fun τ => rfl) prms nms h i σ hi huni hsi
    have hnj := loop_names l emptyTable (fun _ => 0) (fun τ => rfl) prms nms h j σ hj hunj hsj
    simp only [Nat.zero_add] at hni hnj
    rw [hni, hnj]
    have hdist : synthName σ (priorStemCount l i σ) ≠ synthName σ (priorStemCount l j σ) := by
      apply synthName_inj
      have hstep := priorStemCount_succ_occ l σ i hi huni hsi
      have hmono := priorStemCount_mono l σ (i + 1) j hij
      omega
    simp only [ne_eq, Option.some.injEq]
    exact hdist
  · intro p ps m n ns t hp hgt
    exact loop_cons_named p ps m n ns hp t hgt

/-- C3 amended witness: in the list `(error, int, int)` (all unnamed) the
two `int` parameters of stem `ival` get distinct names (`ival`,
`ival0`), and a named parameter `(x int)` passes through with the same
collision table. -/
theorem c3_amended_witness :
    (["error", "ival", "ival0"] : List String).get? 1
        ≠ (["error", "ival", "ival0"] : List String).get? 2
    ∧ getParamFieldLoop [(["x"], Expr.ident "int")] emptyTable
        = (getParamFieldLoop ([] : List Field) emptyTable).map
            (fun r => (("x" ++ " " ++ "int") :: r.1, "x" :: r.2)) :=
  ⟨(c3_amended_same_stem_distinct_named_untouched).1
      [([], Expr.ident "error"), ([], Expr.ident "int"), ([], Expr.ident "int")]
      ["error error", "ival int", "ival0 int"] ["error", "ival", "ival0"] (by decide)
      1 2 "ival" (by decide) (by decide) (by decide) (by decide) (by decide) (by decide) (by decide),
   (c3_amended_same_stem_distinct_named_untouched).2 (["x"], Expr.ident "int") [] emptyTable
      "x" [] "int" rfl rfl⟩

/-- C4 counterexample: a send-only channel of `int` renders as
`"chan <-int"` (the `switch` appends `"<-"` after `"chan "`), not as
`"chan<- " ++ "int"` as claimed. -/
theorem c4_send_only_marker_counterexample :
    getType (Expr.chanType 1 (Expr.ident "int")) = some "chan <-int"
    ∧ "chan <-int" ≠ "chan<- " ++ "int" :=
  ⟨rfl, by decide⟩

/-- C4 (amended): a receive-only channel (`ast` direction 2) renders as
`"<-chan "` before the element type; a send-only channel (`ast`
direction 1) renders as `"chan <-"` before the element type (the marker
follows the prefix's trailing space); a bidirectional channel (`ast`
direction 3) renders with the plain `"chan "` prefix. -/
theorem c4_amended_channel_rendering (t : Expr) :
    getType (Expr.chanType 2 t) = (getType t).map (fun s => "<-chan " ++ s)
    ∧ getType (Expr.chanType 1 t) = (getType t).map (fun s => "chan <-" ++ s)
    ∧ getType (Expr.chanType 3 t) = (getType t).map (fun s => "chan " ++ s) :=
  ⟨rfl, rfl, rfl⟩

/-- C5: within one parameter list, an unnamed parameter whose stem is `σ`
is named `synthName σ c` where `c` counts the earlier unnamed parameters
of the same stem: `σ` for the first occurrence, then `σ0, σ1, …` — each
stem's counter independent of interleaved stems. -/
theorem c5_same_stem_numbering (l : List Field) (prms nms : List String)
    (h : getParamFieldLoop l emptyTable = some (prms, nms))
    (i : Nat) (σ : String) (hi : i < l.length)
    (hun : (l.get ⟨i, hi⟩).1 = []) (hstem : stemOf (l.get ⟨i, hi⟩) = some σ) :
    nms.get? i = some (synthName σ (priorStemCount l i σ)) := by
  have := loop_names l emptyTable (fun _ => 0) (fun τ => rfl) prms nms h i σ hi hun hstem
  simpa using this

/-- C5 witness: three unnamed `int` parameters are named
`ival, ival0, ival1`; position 2 carries `synthName "ival" 2 = "ival1"`. -/
theorem c5_witness :
    (["ival", "ival0", "ival1"] : List String).get? 2
      = some (synthName "ival"
          (priorStemCount
            [([], Expr.ident "int"), ([], Expr.ident "int"), ([], Expr.ident "int")] 2 "ival")) :=
  c5_same_stem_numbering
    [([], Expr.ident "int"), ([], Expr.ident "int"), ([], Expr.ident "int")]
    ["ival int", "ival0 int", "ival1 int"] ["ival", "ival0", "ival1"]
    (by decide) 2 "ival" (by decide) (by decide) (by decide)

/-- C6: zero-value resolution of a plain name depends only on the
oracle's underlying kind, never on the spelling; numeric kinds give
`"0"`, `bool` gives `"false"`, `string` gives the empty-string literal,
anything else gives `"nil"`, and a qualified name resolves through its
unqualified member component. -/
theorem c6_zero_value_underlying_kind (u : String → String) :
    (∀ a b, u a = u b → getZeroValue u (Expr.ident a) = getZeroValue u (Expr.ident b))
    ∧ (∀ a, numericKinds.contains (u a) = true → getZeroValue u (Expr.ident a) = "0")
    ∧ (∀ a, u a = "bool" → getZeroValue u (Expr.ident a) = "false")
    ∧ (∀ a, u a = "string" → getZeroValue u (Expr.ident a) = "\"\"")
    ∧ (∀ a, numericKinds.contains (u a) = false → u a ≠ "bool" → u a ≠ "string" →
        getZeroValue u (Expr.ident a) = "nil")
    ∧ (∀ x sel, getZeroValue u (Expr.selector x sel) = getZeroValue u (Expr.ident sel)) := by
  refine ⟨?_, ?_, ?_, ?_, ?_, ?_⟩
  · intro a b h
    simp only [getZeroValue, getBuiltinZeroValue, h]
  · intro a h
    simp only [getZeroValue, getBuiltinZeroValue, h]
    simp
  · intro a h
    have hc : numericKinds.contains "bool" = false := by decide
    simp only [getZeroValue, getBuiltinZeroValue, h, hc]
    simp
  · intro a h
    have hc : numericKinds.contains "string" = false := by decide
    simp only [getZeroValue, getBuiltinZeroValue, h, hc]
    simp
  · intro a h1 h2 h3
    simp only [getZeroValue, getBuiltinZeroValue, h1]
    simp [h2, h3]
  · intro x sel
    rfl

/-- C6 witness: two named types `Celsius` and `Fahrenheit` with the same
underlying kind `float64` get the same default-value text. -/
theorem c6_witness :
    getZeroValue (fun s => if s = "Celsius" || s = "Fahrenheit" then "float64" else "unresolved")
        (Expr.ident "Celsius")
      = getZeroValue (fun s => if s = "Celsius" || s = "Fahrenheit" then "float64" else "unresolved")
        (Expr.ident "Fahrenheit") :=
  (c6_zero_value_underlying_kind
    (fun s => if s = "Celsius" || s = "Fahrenheit" then "float64" else "unresolved")).1
    "Celsius" "Fahrenheit" (by decide)

/-- C7: for `Do(context.Context, map[string]int)` the synthesized names
are `ctx` (context collapse) and `ivalmap` (stem of the map's remainder
after the first closing bracket, suffixed `map`); a slice-prefixed type
derives the remainder's stem suffixed `s`. -/
theorem c7_ctx_and_map_naming :
    getParamField [([], Expr.selector (Expr.ident "context") "Context"),
                   ([], Expr.mapType (Expr.ident "string") (Expr.ident "int"))]
      = some ("ctx context.Context, ivalmap map[string]int", "ctx, ivalmap")
    ∧ ∀ (r : String), makeIdentName ("[]" ++ r) = makeIdentName r ++ "s" :=
  ⟨by decide, makeIdentName_slice⟩

/-- C8: for a non-empty result list the return-signature text is the
parenthesized comma-join of the per-field renderings when the field
count exceeds one and the bare single rendering otherwise, while the
default-values text is always the flat comma-join with one entry per
result field. -/
theorem c8_return_projections (u : String → String) (l : List Field) (rs : List String)
    (hne : l ≠ []) (hrl : getReturnList l = some rs) :
    (∀ i p, l.get? i = some p → rs.get? i = renderResult p)
    ∧ (1 < l.length → getReturnFields l = some ("(" ++ String.intercalate ", " rs ++ ")"))
    ∧ (∀ p, l = [p] → getReturnFields l = renderResult p)
    ∧ (getDefaultValuesList u l).length = l.length
    ∧ getDefaultValues u l = String.intercalate ", " (l.map (fun p => getZeroValue u p.2)) := by
  refine ⟨getReturnList_entries l rs hrl, ?_, ?_, ?_, ?_⟩
  · intro hgt
    have hlen := getReturnList_length l rs hrl
    simp only [getReturnFields, hrl, Option.bind_eq_bind, Option.some_bind]
    rw [if_pos (by omega)]
  · intro p hl
    subst hl
    cases hg : getType p.2 with
    | none => simp only [getReturnList, hg] at hrl; exact absurd hrl (by simp)
    | some t =>
      simp only [getReturnList, hg, Option.some.injEq] at hrl
      subst hrl
      simp only [getReturnFields, getReturnList, hg, Option.bind_eq_bind, Option.some_bind]
      simp only [List.length_cons, List.length_nil]
      rw [if_neg (by omega)]
      simp only [renderResult, hg, Option.map_some', List.head?_cons]
  · rw [getDefaultValuesList_map, List.length_map]
  · rw [getDefaultValues, getDefaultValuesList_map]

/-- C8 witness: results `(int, error)` produce the parenthesized
signature text and the flat defaults `0, nil`. -/
theorem c8_witness :
    getReturnFields [([], Expr.ident "int"), ([], Expr.ident "error")]
      = some ("(" ++ String.intercalate ", " ["int", "error"] ++ ")") :=
  (c8_return_projections u0 [([], Expr.ident "int"), ([], Expr.ident "error")]
    ["int", "error"] (by simp) (by decide)).2.1 (by decide)

/-- C9: the three projections (full fields, names only, types only) have
one entry per parameter and entry `i` of the full projection is exactly
name `i`, a space, and type `i`. -/
theorem c9_param_projections_aligned (l : List Field) (prms nms ts : List String)
    (hl : getParamFieldLoop l emptyTable = some (prms, nms))
    (ht : getTypeList l = some ts) :
    prms.length = l.length ∧ nms.length = l.length ∧ ts.length = l.length
    ∧ ∀ i a b c, prms.get? i = some a → nms.get? i = some b → ts.get? i = some c →
        a = b ++ " " ++ c := by
  obtain ⟨h1, h2⟩ := getParamFieldLoop_lengths l emptyTable prms nms hl
  exact ⟨h1, h2, getTypeList_length l ts ht, loop_types_align l emptyTable prms nms ts hl ht⟩

/-- C9 witness: for `(key string, int)` the projections align entrywise:
`"ival int" = "ival" ++ " " ++ "int"`. -/
theorem c9_witness :
    (["key string", "ival int"] : List String).length
        = ([(["key"], Expr.ident "string"), ([], Expr.ident "int")] : List Field).length
    ∧ "ival int" = "ival" ++ " " ++ "int" := by
  obtain ⟨h1, h2, h3, h4⟩ := c9_param_projections_aligned
    [(["key"], Expr.ident "string"), ([], Expr.ident "int")]
    ["key string", "ival int"] ["key", "ival"] ["string", "int"] (by decide) (by decide)
  exact ⟨h1, h4 1 "ival int" "ival" "int" (by decide) (by decide) (by decide)⟩

/-- C10: only members whose type is a function signature become records:
the collection of a member list equals the collection of its
function-typed sublist, and a non-function member (e.g. an embedded
interface name) is skipped with no record and no error. -/
theorem c10_non_function_members_skipped (u : String → String) :
    (∀ l, methodRecs u l = methodRecs u (l.filter (fun x => isFuncType x.2)))
    ∧ (∀ (x : Field) (xs : List Field), isFuncType x.2 = false →
        methodRecs u (x :: xs) = methodRecs u xs) :=
  ⟨methodRecs_filter u, fun x xs h => methodRecs_skip u x xs h⟩

/-- C10 witness: an embedded interface `Reader` in the member list
contributes nothing: the collection equals that of the list without
it. -/
theorem c10_witness :
    methodRecs u0 [([], Expr.ident "Reader"), (["M"], Expr.funcType [] [([], Expr.ident "error")])]
      = methodRecs u0 [(["M"], Expr.funcType [] [([], Expr.ident "error")])] :=
  (c10_non_function_members_skipped u0).2 ([], Expr.ident "Reader")
    [(["M"], Expr.funcType [] [([], Expr.ident "error")])] rfl

end Funcy
